import Mathlib

/-!
Verification of the supermarkdown HTML-to-Markdown converter.

Rust strings are modelled as `List Char` (the code iterates over `chars()`).
Each definition is a direct translation of the corresponding function in
`crates/supermarkdown/src`; the CSS selector engine and the HTML parser are
external crates and appear only as parameters (boolean matchers) or as
concretely modelled DOM trees.
-/

namespace Supermarkdown

/-- Character class of the regex crate's `\s` (Unicode White_Space property),
used by the `\s+` regexes in `whitespace.rs`, `rules/heading.rs` and
`rules/link.rs`, and equal to Rust's `char::is_whitespace` used by `trim`. -/
def isWsRe (c : Char) : Bool :=
  c = ' ' ∨ ('\u0009' ≤ c ∧ c ≤ '\u000D') ∨ c = '\u0085' ∨ c = '\u00A0' ∨
  c = '\u1680' ∨ ('\u2000' ≤ c ∧ c ≤ '\u200A') ∨ c = '\u2028' ∨
  c = '\u2029' ∨ c = '\u202F' ∨ c = '\u205F' ∨ c = '\u3000'

/-- `whitespace.rs::normalize_block_whitespace`: the regex `\s+` replaced by a
single space; equivalently, every maximal run of whitespace characters is
collapsed to one `' '`. -/
def normalize_block_whitespace : List Char → List Char
  | [] => []
  | c :: rest =>
    if isWsRe c then ' ' :: normalize_block_whitespace (List.dropWhile isWsRe rest)
    else c :: normalize_block_whitespace rest
termination_by s => s.length
decreasing_by
  · simp only [List.length_cons]
    have h := (List.dropWhile_sublist (l := rest) isWsRe).length_le
    omega
  · simp

/-- Rust `str::trim` (both ends, Unicode whitespace). -/
def trimChars (s : List Char) : List Char :=
  ((s.dropWhile isWsRe).reverse.dropWhile isWsRe).reverse

/-- Rust `str::starts_with` on our char-list strings. -/
def starts_with (s pre : List Char) : Bool :=
  List.isPrefixOf pre s

/-- Rust `str::find` for a substring pattern: index of the first occurrence. -/
def find_sub : List Char → List Char → Option Nat
  | s, pat =>
    if List.isPrefixOf pat s then some 0
    else
      match s with
      | [] => none
      | _ :: rest => (find_sub rest pat).map (· + 1)

/-- Rust `str::find` for a single character. -/
def find_char (s : List Char) (c : Char) : Option Nat :=
  List.findIdx? (fun x => x = c) s

/-- Rust `str::rfind` for a single character: index of the last occurrence. -/
def rfind_char (s : List Char) (c : Char) : Option Nat :=
  match find_char s.reverse c with
  | some j => some (s.length - 1 - j)
  | none => none

/-- Rust `str::ends_with` for a single character. -/
def ends_with_char (s : List Char) (c : Char) : Bool :=
  s.getLast? = some c

/-- Rust `str::trim_end_matches` for a single character. -/
def trim_end_matches (s : List Char) (c : Char) : List Char :=
  (List.dropWhile (fun x => x = c) s.reverse).reverse

/-- `escape.rs::escape_url`: percent-encode parentheses and spaces. -/
def escape_url : List Char → List Char
  | [] => []
  | c :: rest =>
    (if c = '(' then ['%', '2', '8']
     else if c = ')' then ['%', '2', '9']
     else if c = ' ' then ['%', '2', '0']
     else [c]) ++ escape_url rest

/-- `escape.rs::escape_title`: backslash-escape double quotes and backslashes. -/
def escape_title : List Char → List Char
  | [] => []
  | c :: rest =>
    (if c = '"' ∨ c = '\\' then ['\\', c] else [c]) ++ escape_title rest

/-- The absolute-URL test at the top of `escape.rs::resolve_url`. -/
def is_absolute_url (rel : List Char) : Bool :=
  starts_with rel ("http://".data) ∨ starts_with rel ("https://".data) ∨
  starts_with rel ("//".data) ∨ starts_with rel ("mailto:".data) ∨
  starts_with rel ("tel:".data) ∨ starts_with rel ("data:".data)

/-- `escape.rs::resolve_url`: resolve a relative URL against a base URL. -/
def resolve_url (base rel : List Char) : List Char :=
  if is_absolute_url rel then rel
  else
    match rel with
    | '/' :: _ =>
      (match find_sub base ("://".data) with
       | some protocolEnd =>
         let afterProtocol := base.drop (protocolEnd + 3)
         let originEnd :=
           match find_char afterProtocol '/' with
           | some j => protocolEnd + 3 + j
           | none => base.length
         base.take originEnd ++ rel
       | none => base ++ rel)
    | '#' :: _ => trim_end_matches base '/' ++ rel
    | '?' :: _ => trim_end_matches base '/' ++ rel
    | _ =>
      if ends_with_char base '/' then base ++ rel
      else
        match rfind_char base '/' with
        | some lastSlash => base.take lastSlash ++ '/' :: rel
        | none => base ++ '/' :: rel


/-- ASCII digit, the regex crate's `\d` restricted to ASCII. The regex class is
Unicode-aware, but a numeric reference containing a non-ASCII digit fails Rust's
`str::parse::<u32>` and is emitted verbatim, the same result as not matching. -/
def isAsciiDigit (c : Char) : Bool :=
  '0' ≤ c ∧ c ≤ '9'

/-- Hex digit class `[0-9a-fA-F]` of the entity regex. -/
def isHexDigitRe (c : Char) : Bool :=
  isAsciiDigit c ∨ ('a' ≤ c ∧ c ≤ 'f') ∨ ('A' ≤ c ∧ c ≤ 'F')

/-- Word character, the regex crate's `\w` restricted to ASCII. A named
reference containing a non-ASCII word character is never in the entity table,
so it is emitted verbatim, the same result as not matching. -/
def isWordRe (c : Char) : Bool :=
  c.isAlphanum ∨ c = '_'

/-- Decimal value of a digit string (the value `str::parse::<u32>` would see). -/
def digitsVal (ds : List Char) : Nat :=
  ds.foldl (fun a c => a * 10 + (c.toNat - 48)) 0

/-- Value of one hex digit. -/
def hexDigitVal (c : Char) : Nat :=
  if isAsciiDigit c then c.toNat - 48
  else if 'a' ≤ c ∧ c ≤ 'f' then c.toNat - 87
  else c.toNat - 55

/-- Hexadecimal value of a hex-digit string (`u32::from_str_radix(_, 16)`). -/
def hexVal (hs : List Char) : Nat :=
  hs.foldl (fun a c => a * 16 + hexDigitVal c) 0

/-- Valid Unicode scalar values, the domain of Rust's `char::from_u32`. -/
def validScalar (n : Nat) : Bool :=
  n < 55296 ∨ (57344 ≤ n ∧ n < 1114112)

/-- The static named-entity table of `entities.rs` (all 36 entries). -/
def ENTITIES : List (List Char × List Char) :=
  [("&amp;".data, ['&']), ("&lt;".data, ['<']), ("&gt;".data, ['>']),
   ("&quot;".data, ['"']), ("&apos;".data, ['\'']), ("&nbsp;".data, [' ']),
   ("&copy;".data, ['©']), ("&reg;".data, ['®']),
   ("&trade;".data, ['™']), ("&mdash;".data, ['—']),
   ("&ndash;".data, ['–']), ("&hellip;".data, ['…']),
   ("&bull;".data, ['•']), ("&middot;".data, ['·']),
   ("&lsquo;".data, ['‘']), ("&rsquo;".data, ['’']),
   ("&ldquo;".data, ['“']), ("&rdquo;".data, ['”']),
   ("&laquo;".data, ['«']), ("&raquo;".data, ['»']),
   ("&times;".data, ['×']), ("&divide;".data, ['÷']),
   ("&plusmn;".data, ['±']), ("&minus;".data, ['−']),
   ("&le;".data, ['≤']), ("&ge;".data, ['≥']),
   ("&ne;".data, ['≠']), ("&infin;".data, ['∞']),
   ("&cent;".data, ['¢']), ("&pound;".data, ['£']),
   ("&euro;".data, ['€']), ("&yen;".data, ['¥']),
   ("&larr;".data, ['←']), ("&rarr;".data, ['→']),
   ("&uarr;".data, ['↑']), ("&darr;".data, ['↓'])]

/-- One attempted match of the entity regex
`&(?:#(\d+)|#x([0-9a-fA-F]+)|(\w+));` at a position right after a `&`,
together with the replacement the closure in `decode_entities` produces.
Returns the replacement text for the whole match (including the `&`) and the
number of characters consumed after the `&`. Alternatives are tried in the
regex's leftmost-first order; each character class is followed by a character
outside the class, so the greedy matches are exact. -/
def tryEntity (s : List Char) : Option (List Char × Nat) :=
  match s with
  | '#' :: s1 =>
    let ds := List.takeWhile isAsciiDigit s1
    let r1 := List.dropWhile isAsciiDigit s1
    (match ds, r1 with
     | _ :: _, ';' :: _ =>
       let v := digitsVal ds
       let rep := if v < 4294967296 ∧ validScalar v then [Char.ofNat v]
                  else '&' :: '#' :: (ds ++ [';'])
       some (rep, ds.length + 2)
     | _, _ =>
       match s1 with
       | 'x' :: s2 =>
         let hs := List.takeWhile isHexDigitRe s2
         let r2 := List.dropWhile isHexDigitRe s2
         (match hs, r2 with
          | _ :: _, ';' :: _ =>
            let v := hexVal hs
            let rep := if v < 4294967296 ∧ validScalar v then [Char.ofNat v]
                       else '&' :: '#' :: 'x' :: (hs ++ [';'])
            some (rep, hs.length + 3)
          | _, _ => none)
       | _ => none)
  | _ =>
    let ws := List.takeWhile isWordRe s
    let r := List.dropWhile isWordRe s
    match ws, r with
    | _ :: _, ';' :: _ =>
      let key := '&' :: (ws ++ [';'])
      let rep := match List.lookup key ENTITIES with
                 | some v => v
                 | none => key
      some (rep, ws.length + 1)
    | _, _ => none

/-- The `replace_all` scan of `ENTITY_RE` over the text: a match can only start
at a `&`; an unmatched character is copied and the scan moves on. -/
def replaceEntities : List Char → List Char
  | [] => []
  | '&' :: rest =>
    (match tryEntity rest with
     | some (rep, k) => rep ++ replaceEntities (rest.drop k)
     | none => '&' :: replaceEntities rest)
  | c :: rest => c :: replaceEntities rest
termination_by s => s.length
decreasing_by
  · simp only [List.length_cons, List.length_drop]
    omega
  · simp
  · simp

/-- `entities.rs::decode_entities`: decode named, decimal and hex references;
text without a `&` is returned unchanged. -/
def decode_entities (s : List Char) : List Char :=
  if s.contains '&' then replaceEntities s else s

/-- Length of the longest run of the character `c` in the list, as computed by
the `find_iter`/`max` scan over the regex `c+` in `rules/pre.rs` (0 if the
character does not occur). -/
def maxRun (c : Char) : List Char → Nat
  | [] => 0
  | x :: rest =>
    if x = c then
      max (1 + (List.takeWhile (fun y => y = c) rest).length)
        (maxRun c (List.dropWhile (fun y => y = c) rest))
    else maxRun c rest
termination_by l => l.length
decreasing_by
  · simp only [List.length_cons]
    exact Nat.lt_succ_of_le (List.Sublist.length_le (List.dropWhile_sublist _))
  · simp

/-- `rules/pre.rs::calculate_fence`: the fence is the preferred character
repeated `max 3 (maxRun + 1)` times, where the run scan uses `TILDE_RE` when
the preferred character is `~` and `BACKTICK_RE` otherwise. -/
def calculate_fence (code : List Char) (preferred : Char) : List Char :=
  let scanned := if preferred = '~' then '~' else '`'
  List.replicate (max 3 (maxRun scanned code + 1)) preferred

/-- `options.rs::HeadingStyle`. -/
inductive HeadingStyle where
  | atx
  | setext
deriving DecidableEq

/-- `options.rs::LinkStyle`. -/
inductive LinkStyle where
  | inline
  | referenced
deriving DecidableEq

/-- `options.rs::Options`. The selector string lists are compiled by the
external CSS engine; they enter the model only as the boolean element matchers
passed to the precompute pass. -/
structure Options where
  heading_style : HeadingStyle
  code_fence : Char
  link_style : LinkStyle
  bullet_marker : Char
  base_url : Option (List Char)

/-- `Options::default()`. -/
def defaultOptions : Options :=
  { heading_style := .atx, code_fence := '`', link_style := .inline,
    bullet_marker := '-', base_url := none }

/-- Decimal rendering of a `usize`, as `format!` produces it. -/
def natStr (n : Nat) : List Char :=
  (Nat.repr n).data

/-- Rust `str::parse::<usize>`: optional leading `+`, then one or more ASCII
digits, failing on any other character and on 64-bit overflow. -/
def parseUsize (s : List Char) : Option Nat :=
  let digits := match s with
    | '+' :: rest => rest
    | _ => s
  if digits.isEmpty then none
  else if digits.all isAsciiDigit then
    let v := digitsVal digits
    if v < 18446744073709551616 then some v else none
  else none

/-- `rules/heading.rs::HeadingRule::convert`, as a function of the tag name,
the raw converted-children text and the options. The rule calls the
child-conversion callback exactly once on the element; that result is the
`contentRaw` argument. -/
def heading_convert (tag : List Char) (contentRaw : List Char) (opts : Options) :
    List Char :=
  let level := (parseUsize (tag.drop 1)).getD 1
  let content := normalize_block_whitespace (trimChars contentRaw)
  if content.isEmpty then []
  else
    match opts.heading_style with
    | .atx => '\n' :: '\n' :: (List.replicate level '#' ++ ' ' :: content) ++ ['\n', '\n']
    | .setext =>
      if level ≤ 2 then
        let underline := if level = 1 then '=' else '-'
        '\n' :: '\n' :: (content ++ '\n' :: List.replicate content.length underline) ++
          ['\n', '\n']
      else '\n' :: '\n' :: (List.replicate level '#' ++ ' ' :: content) ++ ['\n', '\n']

/-- The base-URL resolution step inside `rules/link.rs::LinkRule::convert`. -/
def resolve_with_base (opts : Options) (href : List Char) : List Char :=
  match opts.base_url with
  | some b => resolve_url b href
  | none => href

/-- `rules/link.rs::LinkRule::convert`, as a function of the element's
attributes, the raw converted-children text and the options. -/
def link_convert (attrs : List (List Char × List Char)) (contentRaw : List Char)
    (opts : Options) : List Char :=
  let href := (List.lookup ("href".data) attrs).getD []
  let title := List.lookup ("title".data) attrs
  let content := normalize_block_whitespace (trimChars contentRaw)
  if href.isEmpty ∨ href = ['#'] then content
  else
    let href := resolve_with_base opts href
    if title.isNone ∧ starts_with href ("mailto:".data) ∧ content = href.drop 7 then
      '<' :: (href.drop 7) ++ ['>']
    else if title.isNone ∧ content = href then
      '<' :: href ++ ['>']
    else
      let hrefE := escape_url href
      match title with
      | some t =>
        '[' :: content ++ ']' :: '(' :: hrefE ++ ' ' :: '"' :: escape_title t ++ ['"', ')']
      | none => '[' :: content ++ ']' :: '(' :: hrefE ++ [')']


/-- Saturating subtraction of 1 on Rust's `i32` (saturates at `i32::MIN`,
not at 0). -/
def i32SatSub1 (d : Int) : Int :=
  max (d - 1) (-2147483648)

/-- The character scan of `postprocess.rs::escape_link_newlines`, carrying the
`bracket_depth: i32` counter. -/
def escapeGo : Int → List Char → List Char
  | _, [] => []
  | depth, '\\' :: next :: rest =>
    if next = '[' ∨ next = ']' then '\\' :: next :: escapeGo depth rest
    else '\\' :: escapeGo depth (next :: rest)
  | depth, '[' :: rest => '[' :: escapeGo (depth + 1) rest
  | depth, ']' :: rest => ']' :: escapeGo (i32SatSub1 depth) rest
  | depth, '\n' :: rest =>
    if depth > 0 then '\\' :: 'n' :: escapeGo depth rest
    else '\n' :: escapeGo depth rest
  | depth, c :: rest => c :: escapeGo depth rest

/-- `postprocess.rs::escape_link_newlines`. -/
def escape_link_newlines (s : List Char) : List Char :=
  escapeGo 0 s

/-- The scan described by the specification for link-newline escaping: the
bracket depth is a counter with a floor of 0 (a `]` seen at depth 0 leaves the
depth at 0). Written from the spec's words, to be compared with
`escape_link_newlines`. -/
def escapeGoSpec : Nat → List Char → List Char
  | _, [] => []
  | depth, '\\' :: next :: rest =>
    if next = '[' ∨ next = ']' then '\\' :: next :: escapeGoSpec depth rest
    else '\\' :: escapeGoSpec depth (next :: rest)
  | depth, '[' :: rest => '[' :: escapeGoSpec (depth + 1) rest
  | depth, ']' :: rest => ']' :: escapeGoSpec (depth - 1) rest
  | depth, '\n' :: rest =>
    if depth > 0 then '\\' :: 'n' :: escapeGoSpec depth rest
    else '\n' :: escapeGoSpec depth rest
  | depth, c :: rest => c :: escapeGoSpec depth rest

/-- Link-newline escaping as the specification states it (depth floored at 0). -/
def escape_link_newlines_spec (s : List Char) : List Char :=
  escapeGoSpec 0 s

/-- The optional title group `(?:\s+"([^"]*)")?` of `INLINE_LINK_RE`, attempted
at the position right after the URL. Returns the title text and the number of
characters the group consumes. Each greedy class is followed by a character
outside the class, so no backtracking inside the group is possible. -/
def linkTitleGroup (s : List Char) : Option (List Char × Nat) :=
  let w := List.takeWhile isWsRe s
  let r := List.dropWhile isWsRe s
  if w.isEmpty then none
  else
    match r with
    | '"' :: r2 =>
      let t := List.takeWhile (fun c => !(c == '"')) r2
      let r3 := List.dropWhile (fun c => !(c == '"')) r2
      (match r3 with
       | '"' :: _ => some (t, w.length + t.length + 2)
       | _ => none)
    | _ => none

/-- The body `\[([^\]]+)\]\(([^)\s]+)(?:\s+"([^"]*)")?\)` of `INLINE_LINK_RE`,
attempted at the start of `s`. Returns the text capture, the URL capture, the
optional title capture, and the number of characters consumed. If the optional
title group matches but no `)` follows it, the regex backtracks to not taking
the group, which then also fails because the character after the URL is
whitespace — the shared fallback below. -/
def linkMatchCore (s : List Char) :
    Option (List Char × List Char × Option (List Char) × Nat) :=
  match s with
  | '[' :: s1 =>
    let text := List.takeWhile (fun c => !(c == ']')) s1
    let r1 := List.dropWhile (fun c => !(c == ']')) s1
    if text.isEmpty then none
    else
      match r1 with
      | ']' :: '(' :: s2 =>
        let url := List.takeWhile (fun c => !(c == ')') && !(isWsRe c)) s2
        let r2 := List.dropWhile (fun c => !(c == ')') && !(isWsRe c)) s2
        if url.isEmpty then none
        else
          let fallback : Option (List Char × List Char × Option (List Char) × Nat) :=
            match r2 with
            | ')' :: _ => some (text, url, none, text.length + url.length + 4)
            | _ => none
          (match linkTitleGroup r2 with
           | some (t, tlen) =>
             (match r2.drop tlen with
              | ')' :: _ => some (text, url, some t, text.length + url.length + 4 + tlen)
              | _ => fallback)
           | none => fallback)
      | _ => none
  | _ => none

/-- One attempted match of `INLINE_LINK_RE` at a position of the haystack: the
prefix group `(^|[^!])` matches empty only at the very start of the text
(leftmost-first, `^` tried before `[^!]`), otherwise it consumes one non-`!`
character. Returns the prefix capture, the three body captures, and the total
number of characters consumed. -/
def linkTryMatch (atStart : Bool) (s : List Char) :
    Option (List Char × List Char × List Char × Option (List Char) × Nat) :=
  let viaPrefix : Option (List Char × List Char × List Char × Option (List Char) × Nat) :=
    match s with
    | c :: rest =>
      if c = '!' then none
      else (linkMatchCore rest).map (fun r => ([c], r.1, r.2.1, r.2.2.1, r.2.2.2 + 1))
    | [] => none
  if atStart then
    match linkMatchCore s with
    | some (t, u, ti, k) => some ([], t, u, ti, k)
    | none => viaPrefix
  else viaPrefix

/-- The `replace_all` loop of `postprocess.rs::convert_to_referenced_links`,
carrying the `url_to_ref` map, the `references` list and the `ref_counter`
exactly as the Rust closure does. Returns the rewritten text and the collected
references. Every successful match consumes at least one character, so the
loop advances by one character and drops the remainder of the match. -/
def refLinksGo : List Char → Bool → List (List Char × Nat) →
    List (Nat × List Char × Option (List Char)) → Nat → List Char →
    List Char × List (Nat × List Char × Option (List Char))
  | [], _, _, references, _, acc => (acc, references)
  | c :: rest, atStart, urlToRef, references, refCounter, acc =>
    match linkTryMatch atStart (c :: rest) with
    | some (pfx, text, url, title, k) =>
      let step :=
        match List.lookup url urlToRef with
        | some n => (n, urlToRef, references, refCounter)
        | none =>
          (refCounter + 1, (url, refCounter + 1) :: urlToRef,
           references ++ [(refCounter + 1, url, title)], refCounter + 1)
      refLinksGo (rest.drop (k - 1)) false step.2.1 step.2.2.1 step.2.2.2
        (acc ++ pfx ++ '[' :: text ++ ']' :: '[' :: natStr step.1 ++ [']'])
    | none =>
      refLinksGo rest false urlToRef references refCounter (acc ++ [c])
termination_by s => s.length
decreasing_by
  · simp only [List.length_cons, List.length_drop]
    omega
  · simp

/-- The reference-definition block appended by `convert_to_referenced_links`:
one `[N]: url` or `[N]: url "title"` line per entry. -/
def formatReferences : List (Nat × List Char × Option (List Char)) → List Char
  | [] => []
  | (num, url, title) :: rest =>
    ('[' :: natStr num ++ ']' :: ':' :: ' ' :: url ++
      (match title with
       | some t => ' ' :: '"' :: t ++ ['"']
       | none => []) ++ ['\n']) ++ formatReferences rest

/-- `postprocess.rs::convert_to_referenced_links`. -/
def convert_to_referenced_links (markdown : List Char) : List Char :=
  let result := refLinksGo markdown true [] [] 0 []
  if result.2.isEmpty then markdown
  else result.1 ++ '\n' :: '\n' :: formatReferences result.2

/-- The regex `\n{3,}` replaced by exactly two newlines
(`EXCESSIVE_NEWLINES_RE` in `postprocess.rs`). -/
def collapse_excessive_newlines : List Char → List Char
  | [] => []
  | '\n' :: rest =>
    if 1 + (List.takeWhile (fun c => c == '\n') rest).length ≥ 3 then
      '\n' :: '\n' :: collapse_excessive_newlines (List.dropWhile (fun c => c == '\n') rest)
    else '\n' :: collapse_excessive_newlines rest
  | c :: rest => c :: collapse_excessive_newlines rest
termination_by s => s.length
decreasing_by
  · simp only [List.length_cons]
    exact Nat.lt_succ_of_le (List.Sublist.length_le (List.dropWhile_sublist _))
  · simp
  · simp

/-- Strip one carriage return before a terminating newline (`str::lines`
treats `\r\n` as a line ending). -/
def stripCR (piece : List Char) : List Char :=
  if piece.getLast? = some '\r' then piece.dropLast else piece

/-- Rust `str::lines`: split at `\n`, the final line ending optional; a line
terminated by `\r\n` loses the `\r`, while a trailing `\r` on an unterminated
final line is kept. -/
def rustLines (s : List Char) : List (List Char) :=
  if s.isEmpty then []
  else
    let ps := s.splitOn '\n'
    if s.getLast? = some '\n' then ps.dropLast.map stripCR
    else ps.dropLast.map stripCR ++ ps.drop (ps.length - 1)

/-- Rust `str::trim_end`. -/
def trim_end_ws (l : List Char) : List Char :=
  (l.reverse.dropWhile isWsRe).reverse

/-- `postprocess.rs::trim_trailing_whitespace`: trim each line, join with
newlines. -/
def trim_trailing_whitespace (s : List Char) : List Char :=
  List.intercalate ['\n'] ((rustLines s).map trim_end_ws)

/-- `postprocess.rs::postprocess`: the five stages in their fixed order. -/
def postprocess (markdown : List Char) (opts : Options) : List Char :=
  let r1 := escape_link_newlines markdown
  let r2 := if opts.link_style = .referenced then convert_to_referenced_links r1 else r1
  let r3 := collapse_excessive_newlines r2
  let r4 := trim_trailing_whitespace r3
  trimChars r4


/-- DOM node as delivered by the external HTML parser (`scraper`/`html5ever`):
elements with tag, attributes and children, text nodes, and other nodes
(comments, doctypes, ...). `id` models the parser's stable per-node
identifier (`ego_tree::NodeId`); the parser guarantees ids are distinct. -/
inductive HtmlNode where
  | element (id : Nat) (tag : List Char) (attrs : List (List Char × List Char))
      (children : List HtmlNode)
  | text (id : Nat) (content : List Char)
  | comment (id : Nat)

/-- The children of a node (non-element nodes have none). -/
def childrenOf : HtmlNode → List HtmlNode
  | .element _ _ _ cs => cs
  | _ => []

/-- `precompute.rs::NodeMetadata`. The field `listPfx` is the source's
`list_prefix`. -/
structure NodeMetadata where
  listPfx : Option (List Char) := none
  ancestor_indent : Nat := 0
  skip : Bool := false
  force_keep : Bool := false
deriving DecidableEq

/-- The `FxHashMap<NodeId, NodeMetadata>` of `precompute.rs`, as an
association list on node ids (lookup by the first matching key). -/
def MetadataMap : Type := List (Nat × NodeMetadata)

/-- The `metadata.entry(id).or_default()` pattern followed by a field
mutation: modify the entry in place if present, insert `f default`
otherwise. -/
def updateMeta : List (Nat × NodeMetadata) → Nat → (NodeMetadata → NodeMetadata) →
    List (Nat × NodeMetadata)
  | [], id, f => [(id, f {})]
  | (k, v) :: rest, id, f =>
    if k = id then (k, f v) :: rest else (k, v) :: updateMeta rest id f

/-- `precompute.rs::ListContext`. `prefix_len` is a byte length
(Rust `String::len`). -/
structure ListContext where
  ordered : Bool
  index : Nat
  indent : Nat
  prefix_len : Nat
deriving DecidableEq

/-- Byte length of a string (Rust `String::len`), used for `prefix_len`. -/
def utf8Len (l : List Char) : Nat :=
  (l.map Char.utf8Size).sum

/-- The mutable state threaded through `precompute_metadata::traverse`:
the metadata map, the list-context stack (head is the top, Rust `Vec::last`),
`skip_depth` and `depth`. -/
structure TravState where
  metadata : List (Nat × NodeMetadata)
  list_stack : List ListContext
  skip_depth : Option Nat
  depth : Nat

/-- The entry work of `precompute_metadata::traverse` for an element node:
list-context push, list-item metadata, and the selector skip/force-keep
logic. The selector engine is external; `excl`/`incl` are the compiled
matcher sets `matches_exclude`/`matches_include` as boolean functions of the
element. -/
def traverseEnter (excl incl : HtmlNode → Bool) (opts : Options)
    (id : Nat) (tag : List Char) (attrs : List (List Char × List Char))
    (node : HtmlNode) (st : TravState) : TravState :=
  let st :=
    if tag = "ul".data ∨ tag = "ol".data then
      let currentIndent :=
        match st.list_stack.head? with
        | some ctx => ctx.indent + ctx.prefix_len
        | none => 0
      let startIndex :=
        if tag = "ol".data then
          (((List.lookup ("start".data) attrs).bind parseUsize).getD 1) - 1
        else 0
      { st with list_stack :=
          { ordered := tag = "ol".data, index := startIndex,
            indent := currentIndent, prefix_len := 2 } :: st.list_stack }
    else st
  let st :=
    if tag = "li".data then
      match st.list_stack with
      | ctx :: restStack =>
        let idx := ctx.index + 1
        let pfx := if ctx.ordered then natStr idx ++ ". ".data
                   else [opts.bullet_marker, ' ']
        { st with
          list_stack :=
            { ctx with index := idx, prefix_len := utf8Len pfx } :: restStack,
          metadata := (updateMeta st.metadata id
            (fun m => { m with listPfx := some pfx, ancestor_indent := ctx.indent })) }
      | [] => st
    else st
  let force_keep := incl node
  let matches_exclude := excl node
  let inheritedSkip := st.skip_depth.isSome
  let skip :=
    if force_keep then false
    else if matches_exclude then true
    else inheritedSkip
  let st :=
    if ¬ force_keep ∧ matches_exclude ∧ st.skip_depth = none then
      { st with skip_depth := some st.depth }
    else st
  if skip ∨ force_keep then
    { st with metadata := (updateMeta st.metadata id
        (fun m => { m with skip := skip, force_keep := force_keep })) }
  else st

/-- The exit work of `precompute_metadata::traverse`: pop the list context of
a list container, clear `skip_depth` when leaving the depth that started the
skip, and restore `depth`. -/
def traverseExit (node : HtmlNode) (st : TravState) : TravState :=
  let st :=
    match node with
    | .element _ tag _ _ =>
      if tag = "ul".data ∨ tag = "ol".data then
        { st with list_stack := st.list_stack.tail }
      else st
    | _ => st
  let st := if st.skip_depth = some st.depth then { st with skip_depth := none } else st
  { st with depth := st.depth - 1 }

mutual

/-- `precompute.rs::precompute_metadata::traverse`: recursive DFS threading
the mutable state. -/
def traverse (excl incl : HtmlNode → Bool) (opts : Options) :
    HtmlNode → TravState → TravState
  | .element id tag attrs cs, st0 =>
    let st := { st0 with depth := st0.depth + 1 }
    let st := traverseEnter excl incl opts id tag attrs (.element id tag attrs cs) st
    let st := traverseList excl incl opts cs st
    traverseExit (.element id tag attrs cs) st
  | .text id content, st0 =>
    let st := { st0 with depth := st0.depth + 1 }
    traverseExit (.text id content) st
  | .comment id, st0 =>
    let st := { st0 with depth := st0.depth + 1 }
    traverseExit (.comment id) st

/-- The `for child in node.children()` loop of the traversal. -/
def traverseList (excl incl : HtmlNode → Bool) (opts : Options) :
    List HtmlNode → TravState → TravState
  | [], st => st
  | n :: ns, st => traverseList excl incl opts ns (traverse excl incl opts n st)

end

/-- `precompute.rs::precompute_metadata`: traverse the children of the root
element with fresh state and return the metadata map. -/
def precompute_metadata (excl incl : HtmlNode → Bool) (opts : Options)
    (root : HtmlNode) : List (Nat × NodeMetadata) :=
  (traverseList excl incl opts (childrenOf root)
    { metadata := [], list_stack := [], skip_depth := none, depth := 0 }).metadata

/-- The rules of `rules::default_rules` that this development models (the
ones exercised by the claims). -/
inductive RuleKind where
  | heading
  | link
deriving DecidableEq

/-- Tags owned by the registered rules that are not modelled here
(`rules/mod.rs::default_rules`); the DOM trees appearing in the theorems
below avoid these tags, so on those trees the modelled registry agrees with
the full one. -/
def unmodelledRuleTags : List (List Char) :=
  ["p".data, "pre".data, "blockquote".data, "ul".data, "ol".data, "li".data,
   "dl".data, "dt".data, "dd".data, "table".data, "hr".data, "details".data,
   "figure".data, "img".data, "strong".data, "b".data, "em".data, "i".data,
   "del".data, "s".data, "strike".data, "code".data, "sup".data, "sub".data,
   "br".data, "kbd".data, "mark".data, "abbr".data, "samp".data, "var".data]

/-- `rules/mod.rs::find_rule` restricted to the modelled rules: `HeadingRule`
owns `h1`..`h6` and `LinkRule` owns `a`; a tag owned by no registered rule
resolves to no rule both here and in the source. -/
def find_rule (tag : List Char) : Option RuleKind :=
  if tag = "h1".data ∨ tag = "h2".data ∨ tag = "h3".data ∨ tag = "h4".data ∨
     tag = "h5".data ∨ tag = "h6".data then some .heading
  else if tag = "a".data then some .link
  else none

mutual

/-- `converter.rs::Converter::convert_node_internal`: prune when the metadata
entry says `skip && !force_keep`, otherwise dispatch to the rule owning the
tag (each modelled rule calls the child-conversion callback exactly once on
the element itself), falling back to plain child concatenation. Only element
nodes reach this function in the source (`ElementRef`); the other arms are
vacuous. -/
def convert_node_internal (meta : List (Nat × NodeMetadata)) (opts : Options) :
    HtmlNode → List Char
  | .element id tag attrs cs =>
    if (match List.lookup id meta with
        | some m => m.skip && !m.force_keep
        | none => false) then []
    else
      match find_rule tag with
      | some .heading => heading_convert tag (convert_children meta opts cs) opts
      | some .link => link_convert attrs (convert_children meta opts cs) opts
      | none => convert_children meta opts cs
  | .text _ _ => []
  | .comment _ => []

/-- `converter.rs::Converter::convert_children`: text nodes are
entity-decoded and block-normalized, element children are converted
recursively, other nodes are ignored. -/
def convert_children (meta : List (Nat × NodeMetadata)) (opts : Options) :
    List HtmlNode → List Char
  | [] => []
  | .text _ content :: rest =>
    normalize_block_whitespace (decode_entities content) ++ convert_children meta opts rest
  | .element i t a cs :: rest =>
    convert_node_internal meta opts (.element i t a cs) ++ convert_children meta opts rest
  | .comment _ :: rest => convert_children meta opts rest

end

/-- `converter.rs::Converter::convert` from the parsed DOM onwards: compile
selectors (external, the `excl`/`incl` matchers), precompute metadata,
convert the root element, postprocess. The empty-input early return and the
parse itself happen before the DOM exists and are outside this model. -/
def convertDom (excl incl : HtmlNode → Bool) (opts : Options)
    (root : HtmlNode) : List Char :=
  let meta := precompute_metadata excl incl opts root
  postprocess (convert_node_internal meta opts root) opts


/-- The empty compiled selector set: no element matches. -/
def noSelectors : HtmlNode → Bool := fun _ => false

/-- The compiled matcher of a bare tag-name CSS selector such as `nav`. -/
def tagMatcher (t : List Char) : HtmlNode → Bool
  | .element _ tag _ _ => tag = t
  | _ => false

/-- The compiled matcher of a class CSS selector such as `.keep`. -/
def classMatcher (c : List Char) : HtmlNode → Bool
  | .element _ _ attrs _ => List.lookup ("class".data) attrs = some c
  | _ => false

/-- The DOM the external parser produces for
`<nav><div class="keep">Important</div></nav>`
(the `test_include_overrides_exclude` fixture of `precompute.rs`):
`html` root, `nav` child, `div.keep` grandchild with a text node. The parser
also inserts `head`/`body`, which carry no behavior here; ids follow document
order. -/
def includeOverridesDom : HtmlNode :=
  .element 0 ("html".data) []
    [.element 1 ("nav".data) []
      [.element 2 ("div".data) [("class".data, "keep".data)]
        [.text 3 ("Important".data)]]]

/-- The DOM the external parser produces for
`<a href="https://example.com">https://example.com</a>` as a full document:
`html` containing `head` and `body`, the anchor inside `body`. -/
def autolinkDom : HtmlNode :=
  .element 0 ("html".data) []
    [.element 1 ("head".data) [] [],
     .element 2 ("body".data) []
       [.element 3 ("a".data) [("href".data, "https://example.com".data)]
         [.text 4 ("https://example.com".data)]]]

/-- A document whose body is `<ol start="0"><li>x</li></ol>`. -/
def olStartZeroDom : HtmlNode :=
  .element 0 ("html".data) []
    [.element 1 ("ol".data) [("start".data, "0".data)]
      [.element 2 ("li".data) [] [.text 3 ("x".data)]]]

mutual

/-- No list markup anywhere in the node: no `ul`, `ol` or `li` tag. The list
logic of the traversal is inert on such content. -/
def listFree : HtmlNode → Bool
  | .element _ tag _ cs =>
    !(tag = "ul".data ∨ tag = "ol".data ∨ tag = "li".data) && listFreeList cs
  | _ => true

/-- `listFree` on every node of a list. -/
def listFreeList : List HtmlNode → Bool
  | [] => true
  | n :: ns => listFree n && listFreeList ns

end

/-- Build a `li` element from an id, attributes and content. -/
def mkLi (it : Nat × List (List Char × List Char) × List HtmlNode) : HtmlNode :=
  .element it.1 ("li".data) it.2.1 it.2.2

/-- The metadata entries the traversal writes for a run of `li` children of an
ordered list whose context index starts at `idx` with ancestor indent
`indent`: the j-th item gets prefix `"{idx+j+1}. "`. -/
def liEntriesFrom (idx indent : Nat) :
    List (Nat × List (List Char × List Char) × List HtmlNode) →
    List (Nat × NodeMetadata)
  | [] => []
  | it :: rest =>
    (it.1, { listPfx := some (natStr (idx + 1) ++ ". ".data),
             ancestor_indent := indent }) :: liEntriesFrom (idx + 1) indent rest

/-- The URLs of the successive `INLINE_LINK_RE` matches, in match order: the
same scan as `refLinksGo`, collecting only the URL capture. -/
def matchedUrls : List Char → Bool → List (List Char)
  | [], _ => []
  | c :: rest, atStart =>
    match linkTryMatch atStart (c :: rest) with
    | some (_, _, url, _, k) => url :: matchedUrls (rest.drop (k - 1)) false
    | none => matchedUrls rest false
termination_by s => s.length
decreasing_by
  · simp only [List.length_cons, List.length_drop]
    omega
  · simp

/-- First-seen deduplication, continuing from an already-seen list. -/
def firstSeenDedup (seen : List (List Char)) : List (List Char) → List (List Char)
  | [] => seen
  | u :: us => firstSeenDedup (if u ∈ seen then seen else seen ++ [u]) us

unseal Supermarkdown.normalize_block_whitespace Supermarkdown.replaceEntities
unseal Supermarkdown.maxRun Supermarkdown.collapse_excessive_newlines
unseal Supermarkdown.refLinksGo Supermarkdown.matchedUrls

-- ===== theorems =====

theorem dropWhile_head_false (p : Char → Bool) :
    ∀ (l : List Char) d u, List.dropWhile p l = d :: u → p d = false := by
  intro l
  induction l with
  | nil => intro d u h; simp [List.dropWhile] at h
  | cons c rest ih =>
    intro d u h
    by_cases hc : p c
    · rw [List.dropWhile_cons_of_pos hc] at h
      exact ih d u h
    · rw [List.dropWhile_cons_of_neg hc] at h
      cases h
      simpa using hc

theorem normalize_cons_of_neg {c : Char} (rest : List Char) (h : isWsRe c = false) :
    normalize_block_whitespace (c :: rest) = c :: normalize_block_whitespace rest := by
  rw [normalize_block_whitespace]
  simp [h]

theorem normalize_cons_of_pos {c : Char} (rest : List Char) (h : isWsRe c = true) :
    normalize_block_whitespace (c :: rest) =
      ' ' :: normalize_block_whitespace (List.dropWhile isWsRe rest) := by
  rw [normalize_block_whitespace]
  simp [h]

theorem dropWhile_normalize_dropWhile (l : List Char) :
    List.dropWhile isWsRe (normalize_block_whitespace (List.dropWhile isWsRe l)) =
      normalize_block_whitespace (List.dropWhile isWsRe l) := by
  cases h : List.dropWhile isWsRe l with
  | nil => simp [normalize_block_whitespace]
  | cons d u =>
    have hd : isWsRe d = false := dropWhile_head_false isWsRe l d u h
    rw [normalize_cons_of_neg u hd]
    exact List.dropWhile_cons_of_neg (by simp [hd])

/-- Block whitespace collapsing is idempotent: collapsing twice is the same as
collapsing once (claim C7). -/
theorem normalize_block_whitespace_idem :
    ∀ s : List Char,
      normalize_block_whitespace (normalize_block_whitespace s) = normalize_block_whitespace s
  | [] => by simp [normalize_block_whitespace]
  | c :: rest => by
    by_cases h : isWsRe c
    · rw [normalize_cons_of_pos rest h]
      rw [normalize_cons_of_pos (normalize_block_whitespace (List.dropWhile isWsRe rest))
        (by decide)]
      rw [dropWhile_normalize_dropWhile rest]
      rw [normalize_block_whitespace_idem (List.dropWhile isWsRe rest)]
    · have h0 : isWsRe c = false := by simpa using h
      rw [normalize_cons_of_neg rest h0]
      rw [normalize_cons_of_neg (normalize_block_whitespace rest) h0]
      rw [normalize_block_whitespace_idem rest]
termination_by s => s.length
decreasing_by
  · simp only [List.length_cons]
    have h := (List.dropWhile_sublist (l := rest) isWsRe).length_le
    omega
  · simp

/-- Claim C2: the link-newline-escaping scan is specified with a
bracket-depth floor of 0, but the code keeps `bracket_depth` in an `i32`
whose `saturating_sub(1)` goes to `-1`. At the input `"][\nX](u)"` the code
leaves the newline untouched (depth `-1` then `0` at the newline), while the
specified floor-0 scan escapes it (depth `0` then `1`): the two scans
disagree. -/
theorem escape_link_newlines_depth_not_floored :
    escape_link_newlines ("][\nX](u)".data) = ("][\nX](u)".data) ∧
    escape_link_newlines_spec ("][\nX](u)".data) = ("][\\nX](u)".data) ∧
    escape_link_newlines ("][\nX](u)".data) ≠
      escape_link_newlines_spec ("][\nX](u)".data) := by
  refine ⟨by decide, by decide, by decide⟩

/-- Claim C1: with exclude selector `nav` and include selector `.keep` on
`<nav><div class="keep">Important</div></nav>`, the precompute pass does mark
the inner `div` with `force_keep = true` (and `skip = false`), but the
converter prunes the skipped `nav` ancestor without ever visiting its
children, so the whole output is empty: the force-keep element and its
subtree are suppressed, contradicting the claimed invariant. -/
theorem include_override_never_reaches_converter :
    (List.lookup 2 (precompute_metadata (tagMatcher ("nav".data))
        (classMatcher ("keep".data)) defaultOptions includeOverridesDom)).map
      NodeMetadata.force_keep = some true ∧
    (List.lookup 2 (precompute_metadata (tagMatcher ("nav".data))
        (classMatcher ("keep".data)) defaultOptions includeOverridesDom)).map
      NodeMetadata.skip = some false ∧
    (List.lookup 1 (precompute_metadata (tagMatcher ("nav".data))
        (classMatcher ("keep".data)) defaultOptions includeOverridesDom)).map
      NodeMetadata.skip = some true ∧
    convertDom (tagMatcher ("nav".data)) (classMatcher ("keep".data))
      defaultOptions includeOverridesDom = [] := by
  refine ⟨by decide, by decide, by decide, ?_⟩
  decide

/-- Counterexample to claim C5 as stated: the fence-character quantification
fails for a configured fence character other than backtick and tilde, because
`calculate_fence` then counts backtick runs while emitting the configured
character. For content `"xxx"` and fence character `x`, the chosen fence has
length 3, not strictly longer than the run of three `x` in the content. -/
theorem calculate_fence_non_backtick_counterexample :
    calculate_fence ("xxx".data) 'x' = List.replicate 3 'x' ∧
    ("xxx".data) = [] ++ List.replicate 3 'x' ++ [] ∧
    ¬ 3 < (calculate_fence ("xxx".data) 'x').length := by
  refine ⟨by decide, by decide, by decide⟩

/-- Counterexample to claim C3 as stated: for `<ol start="0"><li>x</li></ol>`
the claim's formula gives the first item the prefix `"0. "`, but
`saturating_sub(1)` on the parsed `usize` start value clamps 0 to the same
numbering as 1, so the code assigns `"1. "`. -/
theorem ordered_list_start_zero_counterexample :
    (List.lookup 2 (precompute_metadata noSelectors noSelectors defaultOptions
        olStartZeroDom)).map NodeMetadata.listPfx = some (some ("1. ".data)) ∧
    (List.lookup 2 (precompute_metadata noSelectors noSelectors defaultOptions
        olStartZeroDom)).map NodeMetadata.listPfx ≠ some (some ("0. ".data)) := by
  refine ⟨by decide, by decide⟩

/-- Counterexample to claim C4 as stated: in `"[a](u)[b](v)"` the second
inline link is not preceded by `!`, yet it is not rewritten, because the
regex's prefix group `(^|[^!])` must consume the character before the `[` and
that character belongs to the previous (non-overlapping) match. -/
theorem referenced_links_adjacent_counterexample :
    convert_to_referenced_links ("[a](u)[b](v)".data) =
      ("[a][1][b](v)\n\n[1]: u\n".data) ∧
    convert_to_referenced_links ("[a](u)[b](v)".data) ≠
      ("[a][1][b][2]\n\n[1]: u\n[2]: v\n".data) := by
  refine ⟨by decide, by decide⟩

theorem takeWhile_replicate_append (p : Char → Bool) (c : Char) (hp : p c = true) :
    ∀ (k : Nat) (post : List Char),
      List.takeWhile p (List.replicate k c ++ post) =
        List.replicate k c ++ List.takeWhile p post := by
  intro k
  induction k with
  | zero => simp
  | succ n ih =>
    intro post
    simp only [List.replicate_succ, List.cons_append, List.takeWhile_cons, hp, ih]
    simp

theorem dropWhile_replicate_append (p : Char → Bool) (c : Char) (hp : p c = true) :
    ∀ (k : Nat) (post : List Char),
      List.dropWhile p (List.replicate k c ++ post) = List.dropWhile p post := by
  intro k
  induction k with
  | zero => simp
  | succ n ih =>
    intro post
    simp only [List.replicate_succ, List.cons_append, List.dropWhile_cons, hp, ih]
    simp [ih]

theorem dropWhile_eq_self_of_takeWhile_nil (p : Char → Bool) (d : List Char)
    (h : List.takeWhile p d = []) : List.dropWhile p d = d := by
  cases d with
  | nil => simp
  | cons x xs =>
    by_cases hx : p x
    · simp [List.takeWhile_cons, hx] at h
    · simp [List.dropWhile_cons_of_neg hx]

theorem takeWhile_nil_of_head_neg (p : Char → Bool) (d : List Char)
    (h : ∀ x xs, d = x :: xs → p x = false) : List.takeWhile p d = [] := by
  cases d with
  | nil => simp
  | cons x xs => simp [List.takeWhile_cons, h x xs rfl]

theorem maxRun_replicate_append (c : Char) :
    ∀ (k : Nat) (d : List Char),
      List.takeWhile (fun y => y = c) d = [] →
      maxRun c (List.replicate k c ++ d) = max k (maxRun c d) := by
  intro k
  induction k with
  | zero =>
    intro d _
    simp
  | succ n ih =>
    intro d hd
    rw [List.replicate_succ, List.cons_append, maxRun]
    simp only [if_pos rfl]
    rw [takeWhile_replicate_append (fun y => y = c) c (by simp) n d, hd]
    rw [dropWhile_replicate_append (fun y => y = c) c (by simp) n d]
    rw [dropWhile_eq_self_of_takeWhile_nil (fun y => y = c) d hd]
    simp only [if_true, List.append_nil, List.length_replicate]
    omega

theorem maxRun_cons_le (c x : Char) (rest : List Char) :
    maxRun c rest ≤ maxRun c (x :: rest) := by
  by_cases hx : x = c
  · subst hx
    have hsplit : rest = List.takeWhile (fun y => y = x) rest ++
        List.dropWhile (fun y => y = x) rest :=
      (List.takeWhile_append_dropWhile (fun y => y = x) rest).symm
    have hall : List.takeWhile (fun y => y = x) rest =
        List.replicate (List.takeWhile (fun y => y = x) rest).length x := by
      refine List.eq_replicate_of_mem ?_
      intro b hb
      have := List.mem_takeWhile_imp hb
      simpa using this
    have hdropHead : List.takeWhile (fun y => y = x) (List.dropWhile (fun y => y = x) rest) = [] := by
      refine takeWhile_nil_of_head_neg _ _ ?_
      intro a as ha
      have := dropWhile_head_false (fun y => y = x) rest a as ha
      simpa using this
    rw [maxRun]
    simp only [if_pos rfl]
    calc maxRun x rest
        = maxRun x (List.replicate (List.takeWhile (fun y => y = x) rest).length x ++
            List.dropWhile (fun y => y = x) rest) := by
          rw [← hall, ← hsplit]
      _ = max (List.takeWhile (fun y => y = x) rest).length
            (maxRun x (List.dropWhile (fun y => y = x) rest)) :=
          maxRun_replicate_append x _ _ hdropHead
      _ ≤ max (1 + (List.takeWhile (fun y => y = x) rest).length)
            (maxRun x (List.dropWhile (fun y => y = x) rest)) := by
          exact max_le_max (by omega) (Nat.le_refl _)
  · rw [maxRun]
    simp [hx]

theorem run_le_maxRun (c : Char) :
    ∀ (pre : List Char) (l : Nat) (post code : List Char),
      code = pre ++ List.replicate l c ++ post → l ≤ maxRun c code := by
  intro pre
  induction pre with
  | nil =>
    intro l post code hcode
    simp only [List.nil_append] at hcode
    subst hcode
    cases l with
    | zero => exact Nat.zero_le _
    | succ n =>
      rw [List.replicate_succ, List.cons_append, maxRun]
      simp only [if_pos rfl]
      rw [takeWhile_replicate_append (fun y => y = c) c (by simp) n post]
      refine le_trans ?_ (Nat.le_max_left _ _)
      simp only [List.length_append, List.length_replicate]
      omega
  | cons p pre2 ih =>
    intro l post code hcode
    subst hcode
    calc l ≤ maxRun c (pre2 ++ List.replicate l c ++ post) := ih l post _ rfl
      _ ≤ maxRun c (p :: (pre2 ++ List.replicate l c ++ post)) := maxRun_cons_le c p _
      _ = maxRun c ((p :: pre2) ++ List.replicate l c ++ post) := by simp

/-- Claim C5, amended to a fence character that is backtick or tilde (the
characters the run scan actually counts): the fence has length
`max 3 (m + 1)` where `m` is the longest run of the fence character in the
code, so it is at least 3 and strictly longer than every run of the fence
character occurring in the content. -/
theorem calculate_fence_strictly_longer (code : List Char) (preferred : Char)
    (hpref : preferred = '`' ∨ preferred = '~') :
    (calculate_fence code preferred).length = max 3 (maxRun preferred code + 1) ∧
    3 ≤ (calculate_fence code preferred).length ∧
    ∀ (l : Nat) (pre post : List Char),
      code = pre ++ List.replicate l preferred ++ post →
      l < (calculate_fence code preferred).length := by
  have hscan : (if preferred = '~' then '~' else '`') = preferred := by
    rcases hpref with h | h <;> simp [h]
  refine ⟨?_, ?_, ?_⟩
  · simp [calculate_fence, hscan]
  · simp only [calculate_fence, List.length_replicate]
    omega
  · intro l pre post hcode
    have hrun := run_le_maxRun preferred pre l post code hcode
    simp only [calculate_fence, hscan, List.length_replicate]
    omega

/-- Witness for `calculate_fence_strictly_longer` at the backtick fence and
the content `a´´´b` (three backticks): the fence length is `max 3 4 = 4` and
the run of length 3 is strictly shorter. -/
theorem calculate_fence_strictly_longer_witness :
    (calculate_fence ("a```b".data) '`').length = max 3 (maxRun '`' ("a```b".data) + 1) ∧
    3 < (calculate_fence ("a```b".data) '`').length :=
  ⟨(calculate_fence_strictly_longer ("a```b".data) '`' (Or.inl rfl)).1,
   (calculate_fence_strictly_longer ("a```b".data) '`' (Or.inl rfl)).2.2 3
     ("a".data) ("b".data) (by decide)⟩

/-- Claim C9: `resolve_url` returns the href unchanged whenever it starts
with one of `http://`, `https://`, `//`, `mailto:`, `tel:`, `data:`, for
every base; consequently the link rule's base-resolution step
(`resolve_with_base`) never rewrites an already-absolute link target, with or
without a configured base URL. -/
theorem resolve_url_absolute_unchanged (base href : List Char)
    (h : starts_with href ("http://".data) = true ∨
         starts_with href ("https://".data) = true ∨
         starts_with href ("//".data) = true ∨
         starts_with href ("mailto:".data) = true ∨
         starts_with href ("tel:".data) = true ∨
         starts_with href ("data:".data) = true) :
    resolve_url base href = href ∧
    ∀ opts : Options, resolve_with_base opts href = href := by
  have habs : is_absolute_url href = true := by
    simp only [is_absolute_url, Bool.decide_or, Bool.or_eq_true, decide_eq_true_eq]
    tauto
  constructor
  · simp [resolve_url, habs]
  · intro opts
    cases hb : opts.base_url with
    | none => simp [resolve_with_base, hb]
    | some b => simp [resolve_with_base, hb, resolve_url, habs]

/-- Witness for `resolve_url_absolute_unchanged`: an absolute URL survives
resolution against a concrete base. -/
theorem resolve_url_absolute_unchanged_witness :
    resolve_url ("https://example.com".data) ("https://other.com/page".data) =
      ("https://other.com/page".data) :=
  (resolve_url_absolute_unchanged ("https://example.com".data)
    ("https://other.com/page".data) (Or.inr (Or.inl (by decide)))).1

/-- Claim C8: with `heading_style = Setext`, headings `h3`..`h6` fall through
to the ATX arm: the output equals what ATX mode produces, and for non-empty
content it is the ATX shape `\n\n` + level-many `#` + space + content +
`\n\n`; the underline form is reserved for levels 1 and 2. -/
theorem heading_setext_high_levels_use_atx (tag raw : List Char) (o : Options)
    (htag : tag = "h3".data ∨ tag = "h4".data ∨ tag = "h5".data ∨ tag = "h6".data)
    (ho : o.heading_style = HeadingStyle.setext) :
    heading_convert tag raw o =
      heading_convert tag raw { o with heading_style := HeadingStyle.atx } ∧
    (normalize_block_whitespace (trimChars raw) ≠ [] →
      heading_convert tag raw o =
        '\n' :: '\n' :: (List.replicate ((parseUsize (tag.drop 1)).getD 1) '#' ++
          ' ' :: normalize_block_whitespace (trimChars raw)) ++ ['\n', '\n']) := by
  have hlevel : ¬ ((parseUsize (tag.drop 1)).getD 1 ≤ 2) ∧
      3 ≤ (parseUsize (tag.drop 1)).getD 1 := by
    rcases htag with h | h | h | h <;> subst h <;> exact ⟨by decide, by decide⟩
  constructor
  · simp only [heading_convert, ho]
    rw [if_neg hlevel.1]
  · intro hne
    have hempty : (normalize_block_whitespace (trimChars raw)).isEmpty = false := by
      cases hc : normalize_block_whitespace (trimChars raw) with
      | nil => exact absurd hc hne
      | cons a as => simp
    simp only [heading_convert, ho, hempty, Bool.false_eq_true, if_false,
      if_neg hlevel.1]

/-- Witness for `heading_setext_high_levels_use_atx`: a concrete `h3` under
Setext style renders in ATX form. -/
theorem heading_setext_high_levels_use_atx_witness :
    heading_convert ("h3".data) ("T".data)
        { defaultOptions with heading_style := HeadingStyle.setext } =
      ('\n' :: '\n' :: (List.replicate 3 '#' ++ ' ' :: normalize_block_whitespace
        (trimChars ("T".data))) ++ ['\n', '\n']) :=
  (heading_setext_high_levels_use_atx ("h3".data) ("T".data)
    { defaultOptions with heading_style := HeadingStyle.setext }
    (Or.inl rfl) rfl).2 (by decide)

theorem takeWhile_append_of_all (p : Char → Bool) (l r : List Char)
    (h : l.all p = true) :
    List.takeWhile p (l ++ r) = l ++ List.takeWhile p r := by
  induction l with
  | nil => simp
  | cons x xs ih =>
    simp only [List.all_cons, Bool.and_eq_true] at h
    simp [List.takeWhile_cons, h.1, ih h.2]

theorem dropWhile_append_of_all (p : Char → Bool) (l r : List Char)
    (h : l.all p = true) :
    List.dropWhile p (l ++ r) = List.dropWhile p r := by
  induction l with
  | nil => simp
  | cons x xs ih =>
    simp only [List.all_cons, Bool.and_eq_true] at h
    simp [List.dropWhile_cons, h.1, ih h.2]

/-- Claim C10: `decode_entities` is a total function and leaves invalid or
unrecognized references verbatim: a decimal or hexadecimal numeric reference
whose value is not a valid Unicode scalar (surrogates, values above
`0x10FFFF`, and `u32` overflows) and a named reference not in the entity
table are emitted exactly as written. -/
theorem decode_entities_invalid_verbatim :
    (∀ ds : List Char, ds ≠ [] → ds.all isAsciiDigit = true →
      ¬ (digitsVal ds < 4294967296 ∧ validScalar (digitsVal ds) = true) →
      decode_entities ('&' :: '#' :: (ds ++ [';'])) = '&' :: '#' :: (ds ++ [';'])) ∧
    (∀ hs : List Char, hs ≠ [] → hs.all isHexDigitRe = true →
      ¬ (hexVal hs < 4294967296 ∧ validScalar (hexVal hs) = true) →
      decode_entities ('&' :: '#' :: 'x' :: (hs ++ [';'])) =
        '&' :: '#' :: 'x' :: (hs ++ [';'])) ∧
    (∀ ws : List Char, ws ≠ [] → ws.all isWordRe = true →
      List.lookup ('&' :: (ws ++ [';'])) ENTITIES = none →
      decode_entities ('&' :: (ws ++ [';'])) = '&' :: (ws ++ [';'])) := by
  refine ⟨?_, ?_, ?_⟩
  · intro ds hne hall hinv
    cases ds with
    | nil => exact absurd rfl hne
    | cons d dtail =>
      have hcontains :
          List.contains ('&' :: '#' :: ((d :: dtail) ++ [';'])) '&' = true := by
        simp [List.contains_cons]
      have htake : List.takeWhile isAsciiDigit ((d :: dtail) ++ [';']) = d :: dtail := by
        rw [takeWhile_append_of_all isAsciiDigit (d :: dtail) [';'] hall]
        simp [List.takeWhile_cons, show isAsciiDigit ';' = false from by decide]
      have hdrop : List.dropWhile isAsciiDigit ((d :: dtail) ++ [';']) = [';'] := by
        rw [dropWhile_append_of_all isAsciiDigit (d :: dtail) [';'] hall]
        simp [List.dropWhile_cons, show isAsciiDigit ';' = false from by decide]
      have hentity : tryEntity ('#' :: ((d :: dtail) ++ [';'])) =
          some ('&' :: '#' :: ((d :: dtail) ++ [';']), (d :: dtail).length + 2) := by
        rw [tryEntity.eq_def]
        simp only [htake, hdrop]
        rw [if_neg hinv]
      have hdroplen : List.drop ((d :: dtail).length + 2)
          ('#' :: ((d :: dtail) ++ [';'])) = [] := by
        apply List.drop_eq_nil_of_le
        simp
      rw [decode_entities, if_pos hcontains, replaceEntities]
      simp only [hentity, hdroplen]
      rw [replaceEntities]
      simp
  · intro hs hne hall hinv
    cases hs with
    | nil => exact absurd rfl hne
    | cons h0 htail =>
      have hcontains :
          List.contains ('&' :: '#' :: 'x' :: ((h0 :: htail) ++ [';'])) '&' = true := by
        simp [List.contains_cons]
      have htake0 : List.takeWhile isAsciiDigit ('x' :: ((h0 :: htail) ++ [';'])) = [] := by
        simp [List.takeWhile_cons, show isAsciiDigit 'x' = false from by decide]
      have hdrop0 : List.dropWhile isAsciiDigit ('x' :: ((h0 :: htail) ++ [';'])) =
          'x' :: ((h0 :: htail) ++ [';']) := by
        simp [List.dropWhile_cons, show isAsciiDigit 'x' = false from by decide]
      have htake : List.takeWhile isHexDigitRe ((h0 :: htail) ++ [';']) = h0 :: htail := by
        rw [takeWhile_append_of_all isHexDigitRe (h0 :: htail) [';'] hall]
        simp [List.takeWhile_cons, show isHexDigitRe ';' = false from by decide]
      have hdrop : List.dropWhile isHexDigitRe ((h0 :: htail) ++ [';']) = [';'] := by
        rw [dropWhile_append_of_all isHexDigitRe (h0 :: htail) [';'] hall]
        simp [List.dropWhile_cons, show isHexDigitRe ';' = false from by decide]
      have hentity : tryEntity ('#' :: 'x' :: ((h0 :: htail) ++ [';'])) =
          some ('&' :: '#' :: 'x' :: ((h0 :: htail) ++ [';']), (h0 :: htail).length + 3) := by
        rw [tryEntity.eq_def]
        simp only [htake0, hdrop0, htake, hdrop]
        rw [if_neg hinv]
      have hdroplen : List.drop ((h0 :: htail).length + 3)
          ('#' :: 'x' :: ((h0 :: htail) ++ [';'])) = [] := by
        apply List.drop_eq_nil_of_le
        simp
      rw [decode_entities, if_pos hcontains, replaceEntities]
      simp only [hentity, hdroplen]
      rw [replaceEntities]
      simp
  · intro ws hne hall hlook
    cases ws with
    | nil => exact absurd rfl hne
    | cons w wtail =>
      have hcontains : List.contains ('&' :: ((w :: wtail) ++ [';'])) '&' = true := by
        simp [List.contains_cons]
      have hw : isWordRe w = true := by
        simp only [List.all_cons, Bool.and_eq_true] at hall
        exact hall.1
      have hwne : ¬ w = '#' := by
        intro hcon
        rw [hcon] at hw
        exact absurd hw (by decide)
      have htake : List.takeWhile isWordRe ((w :: wtail) ++ [';']) = w :: wtail := by
        rw [takeWhile_append_of_all isWordRe (w :: wtail) [';'] hall]
        simp [List.takeWhile_cons, show isWordRe ';' = false from by decide]
      have hdrop : List.dropWhile isWordRe ((w :: wtail) ++ [';']) = [';'] := by
        rw [dropWhile_append_of_all isWordRe (w :: wtail) [';'] hall]
        simp [List.dropWhile_cons, show isWordRe ';' = false from by decide]
      have hentity : tryEntity ((w :: wtail) ++ [';']) =
          some ('&' :: ((w :: wtail) ++ [';']), (w :: wtail).length + 1) := by
        rw [tryEntity.eq_def]
        split
        · rename_i s1 heq
          simp only [List.cons_append, List.cons.injEq] at heq
          exact absurd heq.1 hwne
        · simp only [htake, hdrop, hlook]
      have hdroplen : List.drop ((w :: wtail).length + 1)
          ((w :: wtail) ++ [';']) = [] := by
        apply List.drop_eq_nil_of_le
        simp
      rw [decode_entities, if_pos hcontains, replaceEntities]
      simp only [hentity, hdroplen]
      rw [replaceEntities]
      simp

/-- Witness for `decode_entities_invalid_verbatim`: the surrogate `&#55296;`,
the out-of-range `&#x110000;` and the unknown `&unknown;` are all returned
verbatim. -/
theorem decode_entities_invalid_verbatim_witness :
    decode_entities ('&' :: '#' :: (("55296".data) ++ [';'])) =
      '&' :: '#' :: (("55296".data) ++ [';']) ∧
    decode_entities ('&' :: '#' :: 'x' :: (("110000".data) ++ [';'])) =
      '&' :: '#' :: 'x' :: (("110000".data) ++ [';']) ∧
    decode_entities ('&' :: (("unknown".data) ++ [';'])) =
      '&' :: (("unknown".data) ++ [';']) :=
  ⟨decode_entities_invalid_verbatim.1 ("55296".data) (by decide) (by decide)
     (by decide),
   decode_entities_invalid_verbatim.2.1 ("110000".data) (by decide) (by decide)
     (by decide),
   decode_entities_invalid_verbatim.2.2 ("unknown".data) (by decide) (by decide)
     (by decide)⟩

/-- Claim C6: converting `<a href="https://example.com">https://example.com</a>`
with the default configuration yields exactly `<https://example.com>` (full
pipeline on the parsed document), and in general the link rule emits the
autolink `<url>` for an anchor without a title attribute whose processed text
equals its base-resolved href. -/
theorem autolink_when_text_equals_href :
    convertDom noSelectors noSelectors defaultOptions autolinkDom =
      ("<https://example.com>".data) ∧
    ∀ (attrs : List (List Char × List Char)) (raw : List Char) (opts : Options)
      (href : List Char),
      List.lookup ("title".data) attrs = none →
      List.lookup ("href".data) attrs = some href →
      ¬ (href.isEmpty = true ∨ href = ['#']) →
      normalize_block_whitespace (trimChars raw) = resolve_with_base opts href →
      link_convert attrs raw opts = '<' :: resolve_with_base opts href ++ ['>'] := by
  constructor
  · decide
  · intro attrs raw opts href htitle hhref hne hcontent
    have hmailto : ¬ (Option.isNone (none : Option (List Char)) = true ∧
        starts_with (resolve_with_base opts href) ("mailto:".data) = true ∧
        resolve_with_base opts href = (resolve_with_base opts href).drop 7) := by
      rintro ⟨-, hS, hEq⟩
      rw [starts_with, List.isPrefixOf_iff_prefix] at hS
      obtain ⟨t, ht⟩ := hS
      have hlen : (resolve_with_base opts href).length = 7 + t.length := by
        rw [← ht]
        simp
        omega
      have hlen2 : ((resolve_with_base opts href).drop 7).length =
          (resolve_with_base opts href).length - 7 := by simp
      rw [← hEq] at hlen2
      omega
    simp only [link_convert, hhref, htitle, Option.getD_some, hcontent]
    rw [if_neg hne, if_neg hmailto, if_pos ⟨rfl, trivial⟩]

/-- Witness for `autolink_when_text_equals_href`: applying the general part at
a concrete anchor with matching text and href. -/
theorem autolink_when_text_equals_href_witness :
    link_convert [("href".data, "https://x.org".data)] ("https://x.org".data)
      defaultOptions =
      '<' :: resolve_with_base defaultOptions ("https://x.org".data) ++ ['>'] :=
  autolink_when_text_equals_href.2 [("href".data, "https://x.org".data)]
    ("https://x.org".data) defaultOptions ("https://x.org".data)
    (by decide) (by decide) (by decide) (by decide)

mutual

theorem traverse_listFree_id (opts : Options) :
    ∀ (n : HtmlNode) (st : TravState), listFree n = true → st.skip_depth = none →
      traverse noSelectors noSelectors opts n st = st
  | .element id tag attrs cs, st, hfree, hskip => by
    rw [listFree] at hfree
    simp only [Bool.and_eq_true, Bool.not_eq_eq_eq_not, Bool.not_true,
      decide_eq_false_iff_not, not_or] at hfree
    obtain ⟨⟨hul, hol, hli⟩, hcs⟩ := hfree
    obtain ⟨m, ls, sd, dp⟩ := st
    simp only at hskip
    subst hskip
    have henter : traverseEnter noSelectors noSelectors opts id tag attrs
        (.element id tag attrs cs) ⟨m, ls, none, dp + 1⟩ = ⟨m, ls, none, dp + 1⟩ := by
      simp [traverseEnter, noSelectors, hul, hol, hli]
    rw [traverse, henter,
      traverseList_listFree_id opts cs ⟨m, ls, none, dp + 1⟩ hcs rfl]
    simp [traverseExit, hul, hol]
  | .text id c, st, _, hskip => by
    obtain ⟨m, ls, sd, dp⟩ := st
    simp only at hskip
    subst hskip
    simp [traverse, traverseExit]
  | .comment id, st, _, hskip => by
    obtain ⟨m, ls, sd, dp⟩ := st
    simp only at hskip
    subst hskip
    simp [traverse, traverseExit]

theorem traverseList_listFree_id (opts : Options) :
    ∀ (ns : List HtmlNode) (st : TravState), listFreeList ns = true → st.skip_depth = none →
      traverseList noSelectors noSelectors opts ns st = st
  | [], st, _, _ => by rw [traverseList]
  | n :: ns, st, hfree, hskip => by
    rw [listFreeList] at hfree
    simp only [Bool.and_eq_true] at hfree
    rw [traverseList]
    rw [traverse_listFree_id opts n st hfree.1 hskip]
    exact traverseList_listFree_id opts ns st hfree.2 hskip

end

theorem refLinksGo_invariant :
    ∀ (s : List Char) (atStart : Bool) (urlMap : List (List Char × Nat))
      (refs : List (Nat × List Char × Option (List Char))) (ctr : Nat) (acc : List Char),
      ctr = refs.length →
      refs.map Prod.fst = List.range' 1 refs.length →
      (∀ u : List Char, (List.lookup u urlMap).isSome = true ↔
        u ∈ refs.map (fun r => r.2.1)) →
      ((refLinksGo s atStart urlMap refs ctr acc).2.map Prod.fst =
        List.range' 1 (refLinksGo s atStart urlMap refs ctr acc).2.length) ∧
      ((refLinksGo s atStart urlMap refs ctr acc).2.map (fun r => r.2.1) =
        firstSeenDedup (refs.map (fun r => r.2.1)) (matchedUrls s atStart)) := by
  intro s atStart urlMap refs ctr acc
  induction s, atStart, urlMap, refs, ctr, acc using refLinksGo.induct with
  | case1 atStart urlMap refs ctr acc =>
    intro hctr hrange hmap
    rw [refLinksGo]
    refine ⟨hrange, ?_⟩
    rw [matchedUrls, firstSeenDedup]
  | case2 c rest atStart urlMap refs ctr acc pfx text url title k heq step ih =>
    intro hctr hrange hmap
    rw [refLinksGo]
    simp only [heq]
    rw [matchedUrls]
    simp only [heq]
    unfold step at ih
    cases hlk : List.lookup url urlMap with
    | some n =>
      simp only [hlk] at ih ⊢
      have hconc := ih hctr hrange hmap
      refine ⟨hconc.1, ?_⟩
      rw [firstSeenDedup,
        if_pos ((hmap url).mp (by rw [hlk]; rfl))]
      exact hconc.2
    | none =>
      simp only [hlk] at ih ⊢
      have hnotin : url ∉ refs.map (fun r => r.2.1) := by
        intro hc
        have := (hmap url).mpr hc
        rw [hlk] at this
        simp at this
      have hctr2 : ctr + 1 = (refs ++ [(ctr + 1, url, title)]).length := by
        simp [hctr]
      have hrange2 : (refs ++ [(ctr + 1, url, title)]).map Prod.fst =
          List.range' 1 (refs ++ [(ctr + 1, url, title)]).length := by
        rw [List.map_append, hrange]
        simp only [List.map_cons, List.map_nil, List.length_append,
          List.length_cons, List.length_nil]
        rw [show ctr + 1 = 1 + refs.length from by omega]
        have h1 : List.range' (1 + refs.length) 1 = [1 + refs.length] :=
          List.range'_one
        rw [← h1, List.range'_append_1 1 refs.length 1]
        simp [Nat.add_comm]
      have hmap2 : ∀ u : List Char,
          (List.lookup u ((url, ctr + 1) :: urlMap)).isSome = true ↔
          u ∈ (refs ++ [(ctr + 1, url, title)]).map (fun r => r.2.1) := by
        intro u
        rw [List.lookup_cons]
        simp only [List.map_append, List.map_cons, List.map_nil, List.mem_append,
          List.mem_singleton]
        cases hu : u == url with
        | true =>
          simp only [Option.isSome_some, true_iff]
          exact Or.inr (by simpa using hu)
        | false =>
          rw [hmap u]
          have hne : ¬ u = url := by simpa using hu
          simp [hne]
      have hconc := ih hctr2 hrange2 hmap2
      refine ⟨hconc.1, ?_⟩
      rw [firstSeenDedup, if_neg hnotin]
      rw [hconc.2]
      simp
  | case3 c rest atStart urlMap refs ctr acc heq ih =>
    intro hctr hrange hmap
    rw [refLinksGo]
    simp only [heq]
    rw [matchedUrls]
    simp only [heq]
    exact ih hctr hrange hmap

theorem firstSeenDedup_nodup :
    ∀ (us seen : List (List Char)), seen.Nodup → (firstSeenDedup seen us).Nodup
  | [], seen, h => by rw [firstSeenDedup]; exact h
  | u :: us, seen, h => by
    rw [firstSeenDedup]
    by_cases hu : u ∈ seen
    · rw [if_pos hu]
      exact firstSeenDedup_nodup us seen h
    · rw [if_neg hu]
      refine firstSeenDedup_nodup us (seen ++ [u]) ?_
      simp only [List.nodup_append, List.nodup_cons, List.not_mem_nil,
        not_false_iff, List.nodup_nil, and_true, true_and]
      constructor
      · exact h
      · intro x hx
        simp only [List.mem_singleton]
        intro hc
        exact hu (hc ▸ hx)

/-- Claim C4, amended: under referenced link style, each non-overlapping
match of `INLINE_LINK_RE` (whose prefix group must consume a non-`!`
character before the `[`, or match empty at the very start, so the second of
two immediately adjacent links stays inline) is rewritten to `[text][N]`;
reference numbers are `1..m` in first-seen order of distinct URLs, a repeated
URL reuses its number (the collected URL list is exactly the first-seen
deduplication of the matched URLs, with no duplicates); when any link
matched, a blank line and one definition line per distinct URL is appended,
and when none matched the text is returned unchanged. -/
theorem convert_to_referenced_links_behavior (s : List Char) :
    ((refLinksGo s true [] [] 0 []).2 = [] → convert_to_referenced_links s = s) ∧
    ((refLinksGo s true [] [] 0 []).2 ≠ [] → convert_to_referenced_links s =
      (refLinksGo s true [] [] 0 []).1 ++ '\n' :: '\n' ::
        formatReferences (refLinksGo s true [] [] 0 []).2) ∧
    ((refLinksGo s true [] [] 0 []).2.map Prod.fst =
      List.range' 1 (refLinksGo s true [] [] 0 []).2.length) ∧
    ((refLinksGo s true [] [] 0 []).2.map (fun r => r.2.1) =
      firstSeenDedup [] (matchedUrls s true)) ∧
    ((refLinksGo s true [] [] 0 []).2.map (fun r => r.2.1)).Nodup := by
  have hinv := refLinksGo_invariant s true [] [] 0 [] rfl rfl (by intro u; simp)
  have hded : (refLinksGo s true [] [] 0 []).2.map (fun r => r.2.1) =
      firstSeenDedup [] (matchedUrls s true) := by simpa using hinv.2
  refine ⟨?_, ?_, hinv.1, hded, ?_⟩
  · intro h
    rw [convert_to_referenced_links]
    simp [h]
  · intro h
    rw [convert_to_referenced_links]
    have : (refLinksGo s true [] [] 0 []).2.isEmpty = false := by
      cases hc : (refLinksGo s true [] [] 0 []).2 with
      | nil => exact absurd hc h
      | cons a as => simp
    simp [this]
  · rw [hded]
    exact firstSeenDedup_nodup (matchedUrls s true) [] List.nodup_nil

/-- Witness for `convert_to_referenced_links_behavior`: text with no link
match is returned unchanged. -/
theorem convert_to_referenced_links_behavior_witness :
    convert_to_referenced_links ("no links here".data) = ("no links here".data) :=
  (convert_to_referenced_links_behavior ("no links here".data)).1 (by decide)

end Supermarkdown

namespace Supermarkdown

theorem updateMeta_append_of_lookup_none (f : NodeMetadata → NodeMetadata) :
    ∀ (m : List (Nat × NodeMetadata)) (id : Nat), List.lookup id m = none →
      updateMeta m id f = m ++ [(id, f {})]
  | [], _, _ => rfl
  | (k, v) :: rest, id, h => by
    rw [List.lookup_eq_none_iff] at h
    have hk : ¬ k = id := by
      have := h (k, v) (List.mem_cons_self _ _)
      simp at this
      exact fun hc => this hc.symm
    rw [updateMeta, if_neg hk, List.cons_append,
      updateMeta_append_of_lookup_none f rest id
        (by rw [List.lookup_eq_none_iff]; exact fun p hp => h p (List.mem_cons_of_mem _ hp))]

theorem traverse_li_step (opts : Options)
    (id : Nat) (attrs : List (List Char × List Char)) (cs : List HtmlNode)
    (m : List (Nat × NodeMetadata)) (ctx : ListContext)
    (stackRest : List ListContext) (dp : Nat)
    (hfree : listFreeList cs = true)
    (hlook : List.lookup id m = none)
    (hord : ctx.ordered = true) :
    traverse noSelectors noSelectors opts (.element id ("li".data) attrs cs)
        ⟨m, ctx :: stackRest, none, dp⟩ =
      ⟨m ++ [(id, { listPfx := some (natStr (ctx.index + 1) ++ ". ".data),
                    ancestor_indent := ctx.indent })],
       { ctx with index := ctx.index + 1,
                  prefix_len := utf8Len (natStr (ctx.index + 1) ++ ". ".data) } :: stackRest,
       none, dp⟩ := by
  have hul : ¬ (("li".data : List Char) = "ul".data ∨ ("li".data : List Char) = "ol".data) := by
    decide
  have henter : traverseEnter noSelectors noSelectors opts id ("li".data) attrs
      (.element id ("li".data) attrs cs) ⟨m, ctx :: stackRest, none, dp + 1⟩ =
      ⟨m ++ [(id, { listPfx := some (natStr (ctx.index + 1) ++ ". ".data),
                    ancestor_indent := ctx.indent })],
       { ctx with index := ctx.index + 1,
                  prefix_len := utf8Len (natStr (ctx.index + 1) ++ ". ".data) } :: stackRest,
       none, dp + 1⟩ := by
    rw [traverseEnter]
    simp only [if_neg hul, if_pos rfl, hord, if_pos trivial, noSelectors,
      Option.isSome_none]
    simp only [Bool.false_eq_true, if_false, ite_self]
    rw [updateMeta_append_of_lookup_none _ m id hlook]
    simp
  rw [traverse, henter,
    traverseList_listFree_id opts cs _ hfree rfl]
  simp [traverseExit, hul]

theorem traverseList_li_run (opts : Options) :
    ∀ (items : List (Nat × List (List Char × List Char) × List HtmlNode))
      (m : List (Nat × NodeMetadata)) (ctx : ListContext)
      (stackRest : List ListContext) (dp : Nat),
      (∀ it ∈ items, listFreeList it.2.2 = true) →
      ctx.ordered = true →
      (∀ it ∈ items, List.lookup it.1 m = none) →
      (items.map Prod.fst).Nodup →
      ∃ pl,
        traverseList noSelectors noSelectors opts (items.map mkLi)
            ⟨m, ctx :: stackRest, none, dp⟩ =
          ⟨m ++ liEntriesFrom ctx.index ctx.indent items,
           { ctx with index := ctx.index + items.length, prefix_len := pl } ::
             stackRest, none, dp⟩
  | [], m, ctx, stackRest, dp, _, _, _, _ =>
    ⟨ctx.prefix_len, by
      rw [List.map_nil, traverseList, liEntriesFrom]
      simp⟩
  | it :: rest, m, ctx, stackRest, dp, hfree, hord, hlookup, hnodup => by
    have hstep := traverse_li_step opts it.1 it.2.1 it.2.2 m ctx stackRest dp
      (hfree it (List.mem_cons_self _ _)) (hlookup it (List.mem_cons_self _ _)) hord
    have hheadnotin : it.1 ∉ rest.map Prod.fst := by
      have := hnodup
      rw [List.map_cons, List.nodup_cons] at this
      exact this.1
    have hIH := traverseList_li_run opts rest
      (m ++ [(it.1, { listPfx := some (natStr (ctx.index + 1) ++ ". ".data),
                      ancestor_indent := ctx.indent })])
      { ctx with index := ctx.index + 1,
                 prefix_len := utf8Len (natStr (ctx.index + 1) ++ ". ".data) }
      stackRest dp
      (fun it2 h2 => hfree it2 (List.mem_cons_of_mem _ h2))
      (by simp [hord])
      (fun it2 h2 => by
        rw [List.lookup_append, hlookup it2 (List.mem_cons_of_mem _ h2)]
        have hne : ¬ it2.1 = it.1 := by
          intro hc
          exact hheadnotin (hc ▸ List.mem_map_of_mem Prod.fst h2)
        simp [List.lookup_cons, show (it2.1 == it.1) = false from by simp [hne]]
      )
      (by
        have := hnodup
        rw [List.map_cons, List.nodup_cons] at this
        exact this.2)
    obtain ⟨pl, hIH⟩ := hIH
    refine ⟨pl, ?_⟩
    rw [List.map_cons, traverseList]
    have hmk : mkLi it = .element it.1 ("li".data) it.2.1 it.2.2 := rfl
    rw [hmk, hstep, hIH, liEntriesFrom]
    obtain ⟨co, ci, cind, cpl⟩ := ctx
    simp only [TravState.mk.injEq, ListContext.mk.injEq, List.append_assoc,
      List.singleton_append, List.length_cons, and_true, true_and]
    rw [show ci + 1 + rest.length = ci + (rest.length + 1) from by omega]

theorem lookup_liEntriesFrom :
    ∀ (items : List (Nat × List (List Char × List Char) × List HtmlNode))
      (idx indent : Nat) (i : Nat) (hi : i < items.length),
      (items.map Prod.fst).Nodup →
      List.lookup (items.get ⟨i, hi⟩).1 (liEntriesFrom idx indent items) =
        some { listPfx := some (natStr (idx + i + 1) ++ ". ".data),
               ancestor_indent := indent }
  | it :: rest, idx, indent, 0, _, _ => by
    rw [liEntriesFrom]
    simp [List.lookup_cons]
  | it :: rest, idx, indent, i + 1, hi, hnodup => by
    rw [liEntriesFrom]
    have hi2 : i < rest.length := by simpa using hi
    have hget : ((it :: rest).get ⟨i + 1, hi⟩) = rest.get ⟨i, hi2⟩ := rfl
    have hmem : (rest.get ⟨i, hi2⟩).1 ∈ rest.map Prod.fst :=
      List.mem_map_of_mem Prod.fst (rest.get_mem i hi2)
    have hheadnotin : it.1 ∉ rest.map Prod.fst := by
      have := hnodup
      rw [List.map_cons, List.nodup_cons] at this
      exact this.1
    have hne : ((rest.get ⟨i, hi2⟩).1 == it.1) = false := by
      simp only [beq_eq_false_iff_ne, ne_eq]
      intro hc
      exact hheadnotin (hc ▸ hmem)
    rw [hget, List.lookup_cons]
    simp only [hne]
    rw [lookup_liEntriesFrom rest (idx + 1) indent i hi2
      (by
        have := hnodup
        rw [List.map_cons, List.nodup_cons] at this
        exact this.2)]
    rw [show idx + 1 + i + 1 = idx + (i + 1) + 1 from by omega]

/-- Claim C3, amended: for an ordered list whose `start` attribute parses to
the usize `k` (default 1 when absent or unparsable) and whose items carry no
nested list markup, the 0-indexed item `i` receives the list prefix
`"{(k - 1) + i + 1}. "` (saturating `Nat` subtraction): that is `"{k+i-1}. "`
in the claim's 1-indexed numbering for `k ≥ 1`, while `start="0"` is clamped
to behave exactly like `start="1"`. Node ids are distinct, as the parser
guarantees. -/
theorem ordered_list_item_numbering
    (rootId olId : Nat) (attrs : List (List Char × List Char))
    (items : List (Nat × List (List Char × List Char) × List HtmlNode))
    (opts : Options) (i : Nat) (hi : i < items.length)
    (hfree : ∀ it ∈ items, listFreeList it.2.2 = true)
    (hnodup : (items.map Prod.fst).Nodup) :
    List.lookup (items.get ⟨i, hi⟩).1
        (precompute_metadata noSelectors noSelectors opts
          (.element rootId ("html".data) []
            [.element olId ("ol".data) attrs (items.map mkLi)])) =
      some { listPfx := some (natStr ((((List.lookup ("start".data) attrs).bind parseUsize).getD 1 - 1) + i + 1) ++ ". ".data), ancestor_indent := 0 } := by
  have hol : (("ol".data : List Char) = "ul".data ∨ ("ol".data : List Char) = "ol".data) := by
    decide
  have hnotli : ¬ (("ol".data : List Char) = "li".data) := by decide
  have henter : traverseEnter noSelectors noSelectors opts olId ("ol".data) attrs
      (.element olId ("ol".data) attrs (items.map mkLi)) ⟨[], [], none, 1⟩ =
      ⟨[], [{ ordered := true,
              index := ((List.lookup ("start".data) attrs).bind parseUsize).getD 1 - 1,
              indent := 0, prefix_len := 2 }], none, 1⟩ := by
    rw [traverseEnter]
    simp [if_pos hol, hnotli, noSelectors]
  have hrun := traverseList_li_run opts items []
    { ordered := true,
      index := ((List.lookup ("start".data) attrs).bind parseUsize).getD 1 - 1,
      indent := 0, prefix_len := 2 } [] 1 hfree rfl (fun _ _ => rfl) hnodup
  obtain ⟨pl, hrun⟩ := hrun
  rw [precompute_metadata]
  simp only [childrenOf]
  rw [traverseList, traverseList, traverse, henter, hrun, traverseExit]
  simp only [if_pos hol, List.nil_append]
  exact lookup_liEntriesFrom items _ 0 i hi hnodup

/-- Witness for `ordered_list_item_numbering`: a two-item ordered list with
`start="7"`; the second item gets prefix `"8. "`. -/
theorem ordered_list_item_numbering_witness :
    List.lookup 4 (precompute_metadata noSelectors noSelectors defaultOptions
        (.element 0 ("html".data) []
          [.element 1 ("ol".data) [("start".data, "7".data)]
            (List.map mkLi [(2, ([], [HtmlNode.text 3 ("x".data)])), (4, ([], []))])])) =
      some { listPfx := some (natStr 8 ++ ". ".data), ancestor_indent := 0 } :=
  ordered_list_item_numbering 0 1 [("start".data, "7".data)]
    [(2, ([], [HtmlNode.text 3 ("x".data)])), (4, ([], []))] defaultOptions 1
    (by decide) (by decide) (by decide)

end Supermarkdown
